import Mathlib

/-!
Shallow embedding of `src/boda/generator/AdaLead.py` (class `AdaLead`), the
adaptive evolutionary search ("Adapt-with-the-Leader") over fixed-alphabet
string sequences, together with proofs about the embedded operations.

Modelling conventions:
* a Python string sequence is a `List Char`;
* fitness scores (numpy floats) are rationals `ℚ`, and the externally injected
  fitness function is a pure `F : Seq → ℚ` (the spec assumes fitness is
  deterministic per sequence); the metered wrapper `get_fitness` is modelled
  separately with an `Except` scorer so that scorer failure is expressible;
* all randomness (`random.random`, `random.choice`, `random.shuffle`) is an
  explicit oracle `Rng` of streams indexed by call/attempt counters that are
  threaded through the search;
* the `while` loops of `propose_sequences` (the outer budget loop, the rollout
  loop, and the novel-mutant generation loop) are fuel-indexed; `none` means
  the fuel bound was hit before the loop finished;
* `model_cost` is a `ℕ` counter threaded through the loops exactly where the
  source mutates `self.model_cost`.
-/

namespace AdaLead

/-- Sequences are strings over a finite alphabet; value equality is identity. -/
abbrev Seq := List Char

/-- Embedding of `np.sign` on the rationals. -/
def qsign (x : ℚ) : ℚ := if 0 < x then 1 else if x < 0 then -1 else 0

/-- Embedding of `np.max` over a (nonempty, in all source uses) list of scores. -/
def npMax (l : List ℚ) : ℚ := l.foldl max (l.headD 0)

/-- Configuration surface of the `AdaLead` constructor (the fields used by
`propose_sequences`). -/
structure Config where
  sequences_batch_size : ℕ
  model_queries_per_batch : ℕ
  eval_batch_size : ℕ
  mu : ℚ
  recomb_rate : ℚ
  threshold : ℚ
  rho : ℕ
  vocab : List Char

/-- Oracle of random draws consumed by the search: `shuffle` models
`random.shuffle` at the r-th recombination call, `coin r pair pos` models the
`random.random()` draw for the switch test of a crossover pair, and
`mutFlip a pos` / `mutChoice a pos` model the `random.random()` and
`random.choice` draws of the a-th `generate_random_mutant` call. -/
structure Rng where
  shuffle : ℕ → List Seq → List Seq
  coin : ℕ → ℕ → ℕ → ℚ
  mutFlip : ℕ → ℕ → ℚ
  mutChoice : ℕ → ℕ → ℕ

/-- Embedding of `AdaLead.generate_random_mutant`: each position mutates to a
drawn alphabet symbol when its uniform draw is below `mu`, else keeps the
original symbol.  `random.choice(alphabet)` is modelled by indexing the
alphabet with a drawn index modulo its length (the source raises on an empty
alphabet; here the original symbol is kept in that unreachable case). -/
def generate_random_mutant (flip : ℕ → ℚ) (choose : ℕ → ℕ) (sequence : Seq)
    (mu : ℚ) (alphabet : List Char) : Seq :=
  sequence.enum.map (fun p =>
    if flip p.1 < mu then alphabet.getD (choose p.1 % alphabet.length) p.2 else p.2)

/-- Embedding of the position-by-position crossover of one parent pair inside
`AdaLead.recombine_population`: at each position the switch toggles when the
uniform draw is below the recombination rate, and the two parents' symbols are
routed to the two children according to the switch state.  The source indexes
both parents by the positions of the first one (all call sites pass
equal-length parents); the partner list is consumed in parallel. -/
def crossoverGo (rate : ℚ) (coin : ℕ → ℚ) : ℕ → Bool → Seq → Seq → Seq × Seq
  | _, _, [], _ => ([], [])
  | pos, switch, x :: xs, ys =>
    let sw := if coin pos < rate then !switch else switch
    let y := ys.headD ' '
    let rest := crossoverGo rate coin (pos + 1) sw xs ys.tail
    if sw then (x :: rest.1, y :: rest.2) else (y :: rest.1, x :: rest.2)

/-- Embedding of the pairing loop `for i in range(0, len(gen) - 1, 2)` of
`AdaLead.recombine_population`: consecutive pairs are replaced by their two
crossover children; a leftover unpaired element is not appended to the result. -/
def recombinePairs (rate : ℚ) (coin : ℕ → ℕ → ℚ) : ℕ → List Seq → List Seq
  | k, a :: b :: rest =>
    let ab := crossoverGo rate (coin k) 0 false a b
    ab.1 :: ab.2 :: recombinePairs rate coin (k + 1) rest
  | _, _ => []

/-- Embedding of `AdaLead.recombine_population`: a single-member population is
returned unchanged; otherwise the population is shuffled and consecutive pairs
are replaced by crossover children. -/
def recombine_population (rate : ℚ) (shuffle : List Seq → List Seq)
    (coin : ℕ → ℕ → ℚ) (gen : List Seq) : List Seq :=
  if gen.length = 1 then gen
  else recombinePairs rate coin 0 (shuffle gen)

/-- Embedding of the parent-selection indices of `propose_sequences`
(`np.argwhere(measured_fitnesses >= top_fitness * (1 - np.sign(top_fitness) *
self.threshold))` flattened to an ascending index list). -/
def top_inds (fitnesses : List ℚ) (threshold : ℚ) : List ℕ :=
  (List.range fitnesses.length).filter (fun i =>
    decide (npMax fitnesses * (1 - qsign (npMax fitnesses) * threshold) ≤ fitnesses.getD i 0))

/-- Embedding of `np.resize(arr, n)` for a nonempty list: the first `n`
elements of the list repeated cyclically. -/
def npResize (l : List Seq) (n : ℕ) : List Seq :=
  (List.range n).map (fun i => l.getD (i % l.length) [])

/-- Embedding of a single-key Python dict write (`d[k] = v`): an existing key
is overwritten in place, a new key is appended. -/
def dictInsert (d : List (Seq × ℚ)) (k : Seq) (v : ℚ) : List (Seq × ℚ) :=
  if k ∈ d.map Prod.fst then d.map (fun p => if p.1 = k then (k, v) else p)
  else d ++ [(k, v)]

/-- Embedding of Python `dict.update` over a list of key-value pairs
(`sequences.update(zip(children, fitnesses))`). -/
def dictUpdate (d : List (Seq × ℚ)) : List (Seq × ℚ) → List (Seq × ℚ)
  | [] => d
  | kv :: rest => dictUpdate (dictInsert d kv.1 kv.2) rest

/-- Embedding of `AdaLead.get_fitness` with the scorer allowed to fail: the
source increments `self.model_cost` by `len(sequence_list)` as its first
statement, before encoding, padding, and invoking `self.fitness_fn`; hence in
the embedding the returned counter is `model_cost + sequence_list.length`
independently of the scorer's outcome. -/
def get_fitness (fitness_fn : List Seq → Except Unit (List ℚ)) (model_cost : ℕ)
    (sequence_list : List Seq) : ℕ × Except Unit (List ℚ) :=
  (model_cost + sequence_list.length, fitness_fn sequence_list)

/-- Folding a run of `get_fitness` calls over a list of batches, keeping only
the cumulative query counter. -/
def runCalls (fitness_fn : List Seq → Except Unit (List ℚ)) (model_cost : ℕ) :
    List (List Seq) → ℕ
  | [] => model_cost
  | b :: bs => runCalls fitness_fn (get_fitness fitness_fn model_cost b).1 bs

/-- Embedding of the novel-mutant generation loop
`while len(children) < len(nodes)` of `propose_sequences`: the node at index
`children.length` of the surviving node list is mutated; the mutant is kept
only when it is neither in the seed population nor among the keys of the
round's discovered map.  The fuel bounds the number of loop iterations
(mutation attempts); `none` means the bound was reached with children still
missing. -/
def genChildrenGo (rng : Rng) (mu : ℚ) (vocab : List Char) (measured : List Seq)
    (seqs : List (Seq × ℚ)) (nodes : List (ℕ × Seq)) :
    ℕ → ℕ → List ℕ → List Seq → Option (List ℕ × List Seq × ℕ)
  | 0, a, child_idxs, children =>
    if children.length < nodes.length then none else some (child_idxs, children, a)
  | fuel + 1, a, child_idxs, children =>
    if children.length < nodes.length then
      let p := nodes.getD children.length (0, [])
      let child := generate_random_mutant (rng.mutFlip a) (rng.mutChoice a) p.2
        (mu * 1 / (p.2.length : ℚ)) vocab
      if child ∈ measured ∨ child ∈ seqs.map Prod.fst then
        genChildrenGo rng mu vocab measured seqs nodes fuel (a + 1) child_idxs children
      else
        genChildrenGo rng mu vocab measured seqs nodes fuel (a + 1)
          (child_idxs ++ [p.1]) (children ++ [child])
    else some (child_idxs, children, a)

/-- Embedding of the rollout pruning step of `propose_sequences`: a freshly
evaluated child survives as a node exactly when its fitness strictly exceeds
the fitness of the root of its rollout lineage
(`if fitness > root_fitnesses[idx]: nodes.append((idx, child))`). -/
def nextNodes (root_fitnesses : List ℚ) (child_idxs : List ℕ) (children : List Seq)
    (fitnesses : List ℚ) : List (ℕ × Seq) :=
  ((child_idxs.zip (children.zip fitnesses)).filter
      (fun t => decide (root_fitnesses.getD t.1 0 < t.2.2))).map (fun t => (t.1, t.2.1))

/-- Embedding of the rollout loop `while (len(nodes) > 0 and ...)`: while
surviving nodes remain and one more batch evaluation fits in the remaining
round budget, a batch of novel children is generated, evaluated (charging the
counter), merged into the discovered map, and pruned against the root
fitnesses.  Fuel bounds the loop iterations. -/
def rolloutGo (cfg : Config) (rng : Rng) (F : Seq → ℚ) (measured : List Seq)
    (prev : ℕ) (root_fitnesses : List ℚ) :
    ℕ → ℕ → List (ℕ × Seq) → List (Seq × ℚ) → ℕ → Option (List (Seq × ℚ) × ℕ × ℕ)
  | 0, a, nodes, seqs, cost =>
    if 0 < nodes.length ∧
        cost - prev + cfg.eval_batch_size < cfg.model_queries_per_batch then none
    else some (seqs, cost, a)
  | fuel + 1, a, nodes, seqs, cost =>
    if 0 < nodes.length ∧
        cost - prev + cfg.eval_batch_size < cfg.model_queries_per_batch then
      match genChildrenGo rng cfg.mu cfg.vocab measured seqs nodes fuel a [] [] with
      | none => none
      | some (child_idxs, children, a') =>
        let fitnesses := children.map F
        rolloutGo cfg rng F measured prev root_fitnesses fuel a'
          (nextNodes root_fitnesses child_idxs children fitnesses)
          (dictUpdate seqs (children.zip fitnesses))
          (cost + children.length)
    else some (seqs, cost, a)

/-- Embedding of the chunk loop `for i in range(0, len(parents),
self.eval_batch_size)`: each chunk of parents is evaluated as rollout roots
(charging the counter) and rolled out.  Fuel bounds the number of chunks. -/
def chunksGo (cfg : Config) (rng : Rng) (F : Seq → ℚ) (measured : List Seq)
    (prev : ℕ) :
    ℕ → ℕ → List Seq → List (Seq × ℚ) → ℕ → Option (List (Seq × ℚ) × ℕ × ℕ)
  | _, a, [], seqs, cost => some (seqs, cost, a)
  | 0, _, _ :: _, _, _ => none
  | fuel + 1, a, parents@(_ :: _), seqs, cost =>
    let roots := parents.take cfg.eval_batch_size
    let root_fitnesses := roots.map F
    match rolloutGo cfg rng F measured prev root_fitnesses fuel a roots.enum seqs
        (cost + roots.length) with
    | none => none
    | some (seqs', cost', a') =>
      chunksGo cfg rng F measured prev fuel a' (parents.drop cfg.eval_batch_size) seqs' cost'

/-- Embedding of `for i in range(self.rho): parents =
self.recombine_population(parents)`, with `r` numbering the recombination
calls into the oracle. -/
def recombineRho (rate : ℚ) (rng : Rng) : ℕ → ℕ → List Seq → List Seq
  | 0, _, gen => gen
  | n + 1, r, gen =>
    recombineRho rate rng n (r + 1)
      (recombine_population rate (rng.shuffle r) (rng.coin r) gen)

/-- Embedding of the outer budget loop `while self.model_cost -
previous_model_cost < self.model_queries_per_batch` of `propose_sequences`.
Fuel bounds the outer iterations; the result is the discovered map and the
final counter. -/
def outerGo (cfg : Config) (rng : Rng) (F : Seq → ℚ) (measured : List Seq)
    (prev : ℕ) :
    ℕ → ℕ → ℕ → List Seq → List (Seq × ℚ) → ℕ → Option (List (Seq × ℚ) × ℕ)
  | 0, _, _, _, seqs, cost =>
    if cost - prev < cfg.model_queries_per_batch then none else some (seqs, cost)
  | fuel + 1, r, a, parents, seqs, cost =>
    if cost - prev < cfg.model_queries_per_batch then
      let parents' := recombineRho cfg.recomb_rate rng cfg.rho r parents
      match chunksGo cfg rng F measured prev fuel a parents' seqs cost with
      | none => none
      | some (seqs', cost', a') =>
        outerGo cfg rng F measured prev fuel (r + cfg.rho) a' parents' seqs' cost'
    else some (seqs, cost)

/-- Embedding of `propose_sequences` up to (excluding) the final empty check
and top-K extraction: seed evaluation (charging the counter), sign-aware
parent selection, `np.resize` replication to `sequences_batch_size` parents,
and the budgeted rollout loops.  Returns the round's discovered
sequence-to-fitness map. -/
def propose_core (cfg : Config) (rng : Rng) (F : Seq → ℚ)
    (initial_sequences : List Seq) (cost0 fuel : ℕ) : Option (List (Seq × ℚ)) :=
  let measured_fitnesses := initial_sequences.map F
  let cost1 := cost0 + initial_sequences.length
  let inds := top_inds measured_fitnesses cfg.threshold
  let parents := npResize (inds.map (fun i => initial_sequences.getD i []))
    cfg.sequences_batch_size
  (outerGo cfg rng F initial_sequences cost1 fuel 0 0 parents [] cost1).map Prod.fst

/-- Embedding of `np.argsort` (ascending) on a list of scores: the index list
`range n` sorted by the scores it points at. -/
def argsortAsc (l : List ℚ) : List ℕ :=
  List.insertionSort (fun i j => l.getD i 0 ≤ l.getD j 0) (List.range l.length)

/-- Embedding of the slice `np.argsort(preds)[: -sequences_batch_size : -1]`:
the ascending argsort read backwards, stopping before Python index
`-sequences_batch_size` (for `sbs = 0` the stop index `-0` is `0`, so all but
the first ascending position are taken). -/
def sorted_order (sbs : ℕ) (preds : List ℚ) : List ℕ :=
  (argsortAsc preds).reverse.take (if sbs = 0 then preds.length - 1 else sbs - 1)

/-- Embedding of the final proposal extraction of `propose_sequences`:
`new_seqs[sorted_order], preds[sorted_order]` over the key and value arrays of
the discovered map. -/
def proposeTopK (sbs : ℕ) (d : List (Seq × ℚ)) : List Seq × List ℚ :=
  let new_seqs := d.map Prod.fst
  let preds := d.map Prod.snd
  let ord := sorted_order sbs preds
  (ord.map (fun i => new_seqs.getD i []), ord.map (fun i => preds.getD i 0))

/-- Embedding of `AdaLead.propose_sequences`: the discovered map of the round,
then the `ValueError` raise when it is empty (`Except.error ()` stands for the
`EmptyProposalError` of the spec), else the top-K extraction. -/
def propose_sequences (cfg : Config) (rng : Rng) (F : Seq → ℚ)
    (initial_sequences : List Seq) (cost0 fuel : ℕ) :
    Option (Except Unit (List Seq × List ℚ)) :=
  (propose_core cfg rng F initial_sequences cost0 fuel).map (fun d =>
    if d.length = 0 then Except.error ()
    else Except.ok (proposeTopK cfg.sequences_batch_size d))

/-- Example configuration over the two-letter alphabet, used to evaluate the
embedded search on concrete inputs. -/
def cfgA : Config :=
  { sequences_batch_size := 2, model_queries_per_batch := 3, eval_batch_size := 1,
    mu := 2, recomb_rate := 0, threshold := 0, rho := 0, vocab := ['A', 'B'] }

/-- Example oracle: identity shuffle, all uniform draws `0`, and the mutation
choice cycling through the alphabet with the attempt counter. -/
def rngA : Rng :=
  { shuffle := fun _ g => g, coin := fun _ _ _ => 0,
    mutFlip := fun _ _ => 0, mutChoice := fun a _ => a }

/-- Example fitness function: score `1` for the sequence `"B"`, else `0`. -/
def fitA : Seq → ℚ := fun s => if s = ['B'] then 1 else 0

/-- Example oracle whose mutation draws always mutate and always pick the
first alphabet symbol. -/
def rngStuck : Rng :=
  { shuffle := fun _ g => g, coin := fun _ _ _ => 0,
    mutFlip := fun _ _ => 0, mutChoice := fun _ _ => 0 }

/-- Example configuration like `cfgA` but whose per-round query budget is
smaller than the evaluation batch size. -/
def cfgB : Config :=
  { sequences_batch_size := 2, model_queries_per_batch := 0, eval_batch_size := 1,
    mu := 2, recomb_rate := 0, threshold := 0, rho := 0, vocab := ['A', 'B'] }

/-- Example oracle whose mutation draws always mutate and always pick the
second alphabet symbol. -/
def rngNovel : Rng :=
  { shuffle := fun _ g => g, coin := fun _ _ _ => 0,
    mutFlip := fun _ _ => 0, mutChoice := fun _ _ => 1 }

end AdaLead

namespace AdaLead

/-! Helper lemmas about the embedded operations. -/

theorem foldl_max_mem : ∀ (l : List ℚ) (acc : ℚ),
    l.foldl max acc = acc ∨ l.foldl max acc ∈ l
  | [], _ => Or.inl rfl
  | y :: ys, acc => by
    simp only [List.foldl_cons]
    rcases foldl_max_mem ys (max acc y) with h | h
    · rw [h]
      rcases max_choice acc y with h' | h'
      · exact Or.inl h'
      · rw [h']
        exact Or.inr (List.mem_cons_self _ _)
    · exact Or.inr (List.mem_cons_of_mem _ h)

theorem npMax_mem {l : List ℚ} (h : l ≠ []) : npMax l ∈ l := by
  unfold npMax
  rcases foldl_max_mem l (l.headD 0) with h' | h'
  · rw [h']
    rcases l with _ | ⟨x, xs⟩
    · exact absurd rfl h
    · simp
  · exact h'

theorem mem_top_inds {f : List ℚ} {θ : ℚ} {i : ℕ} :
    i ∈ top_inds f θ ↔
      i < f.length ∧ npMax f * (1 - qsign (npMax f) * θ) ≤ f.getD i 0 := by
  simp [top_inds, List.mem_filter, List.mem_range]

theorem cutoff_le_npMax {f : List ℚ} {θ : ℚ} (hθ : 0 ≤ θ) :
    npMax f * (1 - qsign (npMax f) * θ) ≤ npMax f := by
  set M := npMax f with hM
  unfold qsign
  rcases lt_trichotomy 0 M with h | h | h
  · rw [if_pos h]
    nlinarith
  · rw [← h]
    simp
  · rw [if_neg (by linarith), if_pos h]
    nlinarith

theorem top_inds_ne_nil {f : List ℚ} {θ : ℚ} (hf : f ≠ []) (hθ : 0 ≤ θ) :
    top_inds f θ ≠ [] := by
  have hmem := npMax_mem hf
  obtain ⟨j, hj, hjv⟩ := List.mem_iff_getElem.mp hmem
  have : j ∈ top_inds f θ := by
    refine mem_top_inds.mpr ⟨hj, ?_⟩
    rw [List.getD_eq_getElem f 0 hj, hjv]
    exact cutoff_le_npMax hθ
  intro hnil
  rw [hnil] at this
  simp at this

/-- C1: in `propose_sequences`, a population index is selected into the parent
pool precisely when its fitness is at least the sign-aware multiplicative
cutoff `top_fitness * (1 - sign(top_fitness) * threshold)`; on the fitness
array `[10, 9, 5, 1]` with threshold `0.1` the cutoff is `9` and exactly
indices `0` and `1` are selected. -/
theorem parent_selection_cutoff :
    (∀ (fitnesses : List ℚ) (threshold : ℚ) (i : ℕ),
        i ∈ top_inds fitnesses threshold ↔
          i < fitnesses.length ∧
            npMax fitnesses * (1 - qsign (npMax fitnesses) * threshold) ≤
              fitnesses.getD i 0)
    ∧ top_inds [10, 9, 5, 1] (1 / 10) = [0, 1]
    ∧ npMax [10, 9, 5, 1] * (1 - qsign (npMax [10, 9, 5, 1]) * (1 / 10)) = 9 :=
  ⟨fun _ _ _ => mem_top_inds, by with_unfolding_all decide,
    by with_unfolding_all decide⟩

/-- C5: the embedded `get_fitness` charges the query counter by exactly the
batch length, independently of the scorer's outcome (the source increments
`self.model_cost` before invoking `self.fitness_fn`), so the counter is
monotone and after any run of calls equals the initial value plus the sum of
the batch sizes. -/
theorem get_fitness_cost_accounting :
    (∀ (fn : List Seq → Except Unit (List ℚ)) (c : ℕ) (l : List Seq),
        (get_fitness fn c l).1 = c + l.length ∧ c ≤ (get_fitness fn c l).1)
    ∧ (∀ (fn fn' : List Seq → Except Unit (List ℚ)) (c : ℕ) (l : List Seq),
        (get_fitness fn c l).1 = (get_fitness fn' c l).1)
    ∧ (∀ (fn : List Seq → Except Unit (List ℚ)) (c : ℕ) (batches : List (List Seq)),
        runCalls fn c batches = c + (batches.map List.length).sum) := by
  refine ⟨fun fn c l => ⟨rfl, Nat.le_add_right _ _⟩, fun _ _ _ _ => rfl, fun fn c batches => ?_⟩
  induction batches generalizing c with
  | nil => simp [runCalls]
  | cons b bs ih =>
    simp only [runCalls, get_fitness, ih, List.map_cons, List.sum_cons]
    omega

theorem mem_zip_zip_map {F : Seq → ℚ} :
    ∀ (idxs : List ℕ) (children : List Seq) (idx : ℕ) (c : Seq) (fc : ℚ),
      (idx, c, fc) ∈ idxs.zip (children.zip (children.map F)) ↔
        (idx, c) ∈ idxs.zip children ∧ fc = F c
  | [], children, idx, c, fc => by simp
  | i :: is, [], idx, c, fc => by simp
  | i :: is, x :: xs, idx, c, fc => by
    simp only [List.map_cons, List.zip_cons_cons, List.mem_cons,
      mem_zip_zip_map is xs idx c fc, Prod.mk.injEq]
    constructor
    · rintro (⟨h1, h2, h3⟩ | h)
      · refine ⟨Or.inl ⟨h1, h2⟩, ?_⟩
        rw [h3, h2]
      · exact ⟨Or.inr h.1, h.2⟩
    · rintro ⟨(⟨h1, h2⟩ | h), hfc⟩
      · refine Or.inl ⟨h1, h2, ?_⟩
        rw [hfc, h2]
      · exact Or.inr ⟨h, hfc⟩

/-- C2: in the rollout pruning step of `propose_sequences`, a freshly
evaluated child is kept as a node exactly when its fitness strictly exceeds
the recorded fitness of the root of its rollout lineage, and consequently
every surviving node beats its root's fitness strictly. -/
theorem rollout_pruning_strict :
    ∀ (root_fitnesses : List ℚ) (child_idxs : List ℕ) (children : List Seq)
      (F : Seq → ℚ),
      (∀ (idx : ℕ) (child : Seq),
        (idx, child) ∈ nextNodes root_fitnesses child_idxs children (children.map F) ↔
          (idx, child) ∈ child_idxs.zip children ∧
            root_fitnesses.getD idx 0 < F child)
      ∧ ∀ p ∈ nextNodes root_fitnesses child_idxs children (children.map F),
          root_fitnesses.getD p.1 0 < F p.2 := by
  intro rf idxs children F
  have key : ∀ (idx : ℕ) (child : Seq),
      (idx, child) ∈ nextNodes rf idxs children (children.map F) ↔
        (idx, child) ∈ idxs.zip children ∧ rf.getD idx 0 < F child := by
    intro idx child
    unfold nextNodes
    simp only [List.mem_map, List.mem_filter]
    constructor
    · rintro ⟨⟨i, c', fc⟩, ⟨hmem, hfit⟩, heq⟩
      simp only [Prod.mk.injEq] at heq
      simp only [decide_eq_true_eq] at hfit
      rw [heq.1] at hfit
      rw [heq.1, heq.2] at hmem
      obtain ⟨hz, hfc⟩ := (mem_zip_zip_map idxs children idx child fc).mp hmem
      subst hfc
      exact ⟨hz, hfit⟩
    · rintro ⟨hmem, hfit⟩
      exact ⟨(idx, child, F child),
        ⟨(mem_zip_zip_map idxs children idx child (F child)).mpr ⟨hmem, rfl⟩,
          by simpa using hfit⟩, rfl⟩
  refine ⟨key, fun p hp => ?_⟩
  obtain ⟨i, c⟩ := p
  exact ((key i c).mp hp).2

/-- C2 witness: a concrete surviving node whose fitness strictly exceeds its
root's recorded fitness. -/
theorem rollout_pruning_strict_witness :
    ((0, ['B']) ∈ nextNodes [0] [0] [['B']] ([['B']].map fitA))
    ∧ ([0] : List ℚ).getD 0 0 < fitA ['B'] :=
  ⟨by with_unfolding_all decide,
    (rollout_pruning_strict [0] [0] [['B']] fitA).2 (0, ['B'])
      (by with_unfolding_all decide)⟩

theorem crossoverGo_length (rate : ℚ) (coin : ℕ → ℚ) :
    ∀ (pos : ℕ) (sw : Bool) (a b : Seq),
      (crossoverGo rate coin pos sw a b).1.length = a.length ∧
      (crossoverGo rate coin pos sw a b).2.length = a.length
  | _, _, [], _ => by simp [crossoverGo]
  | pos, sw, x :: xs, ys => by
    have ih := crossoverGo_length rate coin (pos + 1)
      (if coin pos < rate then !sw else sw) xs ys.tail
    simp only [crossoverGo]
    by_cases h : (if coin pos < rate then !sw else sw) = true
    · rw [h] at ih
      simp [h, ih.1, ih.2]
    · rw [Bool.not_eq_true] at h
      rw [h] at ih
      simp [h, ih.1, ih.2]

theorem recombinePairs_length (rate : ℚ) (coin : ℕ → ℕ → ℚ) :
    ∀ (k : ℕ) (gen : List Seq),
      (recombinePairs rate coin k gen).length = 2 * (gen.length / 2)
  | _, [] => by simp [recombinePairs]
  | _, [_] => by simp [recombinePairs]
  | k, a :: b :: rest => by
    simp only [recombinePairs, List.length_cons,
      recombinePairs_length rate coin (k + 1) rest]
    omega

/-- C7 counterexample: with `recomb_rate = 1.0` (every uniform draw, here `0`,
is below the rate) the two parents `"AAAA"` and `"BBBB"` produce the
alternating children `"ABAB"` and `"BABA"`, not the fully-swapped pair
`"BBBB"`/`"AAAA"` the claim states. -/
theorem recombine_rate_one_not_swapped :
    recombine_population 1 (fun g => g) (fun _ _ => 0)
        [['A', 'A', 'A', 'A'], ['B', 'B', 'B', 'B']]
      = [['A', 'B', 'A', 'B'], ['B', 'A', 'B', 'A']]
    ∧ recombine_population 1 (fun g => g) (fun _ _ => 0)
        [['A', 'A', 'A', 'A'], ['B', 'B', 'B', 'B']]
      ≠ [['B', 'B', 'B', 'B'], ['A', 'A', 'A', 'A']]
    ∧ ¬ ['B', 'B', 'B', 'B'] ∈ recombine_population 1 (fun g => g) (fun _ _ => 0)
        [['A', 'A', 'A', 'A'], ['B', 'B', 'B', 'B']] := by
  with_unfolding_all decide

/-- C7 amended: with `recomb_rate = 1.0` every per-position uniform draw (a
value in `[0, 1)`) is below the rate, so the switch flips at every position
and, with the shuffle leaving the order unchanged, the parents `"AAAA"` and
`"BBBB"` yield the alternating children `"ABAB"` and `"BABA"`. -/
theorem recombine_rate_one_alternates :
    ∀ (coin : ℕ → ℕ → ℚ), (∀ k i, coin k i < 1) →
      recombine_population 1 (fun g => g) coin
          [['A', 'A', 'A', 'A'], ['B', 'B', 'B', 'B']]
        = [['A', 'B', 'A', 'B'], ['B', 'A', 'B', 'A']] := by
  intro coin h
  simp [recombine_population, recombinePairs, crossoverGo, h]

/-- C7 amended witness: the all-zero draw stream is below rate `1`
everywhere, and the alternating children are produced. -/
theorem recombine_rate_one_alternates_witness :
    recombine_population 1 (fun g => g) (fun _ _ => 0)
        [['A', 'A', 'A', 'A'], ['B', 'B', 'B', 'B']]
      = [['A', 'B', 'A', 'B'], ['B', 'A', 'B', 'A']] :=
  recombine_rate_one_alternates (fun _ _ => 0) (fun _ _ => zero_lt_one)

/-- C8 counterexample: on the odd-length population `["A", "B", "C"]` (with
identity shuffle and `recomb_rate = 0`) the unpaired sequence `"C"` is absent
from the returned list, which has length `2`, contradicting the claim that
the odd sequence out is still present. -/
theorem recombine_odd_drops_last :
    recombine_population 0 (fun g => g) (fun _ _ => 0) [['A'], ['B'], ['C']]
      = [['B'], ['A']]
    ∧ ¬ ['C'] ∈ recombine_population 0 (fun g => g) (fun _ _ => 0)
        [['A'], ['B'], ['C']] := by
  with_unfolding_all decide

/-- C8 amended: `recombine_population` returns a size-1 population unchanged
regardless of the rate; each consecutive pair of the shuffled list is
replaced by its two crossover children; and for any other population the
result has length `2 * ⌊n / 2⌋` computed from a length-preserving shuffle,
so the unpaired last sequence of an odd-length population is dropped from
the returned list rather than kept. -/
theorem recombine_population_shape :
    (∀ (rate : ℚ) (shuffle : List Seq → List Seq) (coin : ℕ → ℕ → ℚ) (s : Seq),
        recombine_population rate shuffle coin [s] = [s])
    ∧ (∀ (rate : ℚ) (shuffle : List Seq → List Seq) (coin : ℕ → ℕ → ℚ)
        (gen : List Seq), (shuffle gen).length = gen.length → gen.length ≠ 1 →
        (recombine_population rate shuffle coin gen).length = 2 * (gen.length / 2))
    ∧ (∀ (rate : ℚ) (coin : ℕ → ℕ → ℚ) (k : ℕ) (a b : Seq) (rest : List Seq),
        recombinePairs rate coin k (a :: b :: rest)
          = (crossoverGo rate (coin k) 0 false a b).1 ::
            (crossoverGo rate (coin k) 0 false a b).2 ::
            recombinePairs rate coin (k + 1) rest) := by
  refine ⟨fun rate shuffle coin s => by simp [recombine_population],
    fun rate shuffle coin gen hs h1 => ?_, fun _ _ _ _ _ _ => rfl⟩
  rw [recombine_population, if_neg h1, recombinePairs_length, hs]

/-- C8 amended witness: on the concrete odd-length population the returned
list has length `2 = 2 * ⌊3 / 2⌋`. -/
theorem recombine_population_shape_witness :
    (recombine_population 0 (fun g => g) (fun _ _ => 0)
        [['A'], ['B'], ['C']]).length = 2 * (3 / 2) :=
  recombine_population_shape.2.1 0 (fun g => g) (fun _ _ => 0)
    [['A'], ['B'], ['C']] rfl (by decide)


theorem genStuck_none : ∀ (fuel a : ℕ),
    genChildrenGo rngStuck 1 ['A'] [['A']] [] [(0, ['A'])] fuel a [] [] = none := by
  intro fuel
  induction fuel with
  | zero => intro a; simp [genChildrenGo]
  | succ n ih =>
    intro a
    have ih' := ih (a + 1)
    simp only [rngStuck] at ih' ⊢
    norm_num [genChildrenGo, generate_random_mutant, ih']

/-- C6 counterexample: over the one-letter vocabulary `"A"` with the sole
length-1 sequence `"A"` already in the seed population, every producible
mutant is already seen, so the novel-mutant generation loop of
`propose_sequences` rejects every attempt and never finishes, for any number
of attempts — `propose_sequences` does not always terminate. -/
theorem mutant_loop_no_escape :
    ¬ ∃ fuel, (genChildrenGo rngStuck 1 ['A'] [['A']] [] [(0, ['A'])]
        fuel 0 [] []).isSome = true := by
  rintro ⟨fuel, h⟩
  rw [genStuck_none fuel 0] at h
  simp at h

/-- C6 amended: the novel-mutant generation loop of `propose_sequences`
terminates (within as many attempts as there are pending nodes) whenever the
mutant generator always yields a sequence that is neither in the seed
population nor among the round's discovered sequences; when the seen set
covers every producible mutant the loop runs forever, so termination of
`propose_sequences` is conditional on the generator escaping the seen set. -/
theorem mutant_generation_terminates_when_novel :
    ∀ (rng : Rng) (mu : ℚ) (vocab : List Char) (measured : List Seq)
      (seqs : List (Seq × ℚ)) (nodes : List (ℕ × Seq)),
      (∀ (a : ℕ) (p : ℕ × Seq), p ∈ nodes →
        ¬ (generate_random_mutant (rng.mutFlip a) (rng.mutChoice a) p.2
              (mu * 1 / (p.2.length : ℚ)) vocab ∈ measured
            ∨ generate_random_mutant (rng.mutFlip a) (rng.mutChoice a) p.2
              (mu * 1 / (p.2.length : ℚ)) vocab ∈ seqs.map Prod.fst)) →
      ∀ (fuel a : ℕ) (idxs : List ℕ) (children : List Seq),
        nodes.length - children.length ≤ fuel →
        (genChildrenGo rng mu vocab measured seqs nodes fuel a idxs children).isSome
          = true := by
  intro rng mu vocab measured seqs nodes hnovel fuel
  induction fuel with
  | zero =>
    intro a idxs children hle
    have : ¬ children.length < nodes.length := by omega
    simp [genChildrenGo, this]
  | succ n ih =>
    intro a idxs children hle
    by_cases h : children.length < nodes.length
    · have hp : nodes.getD children.length (0, []) ∈ nodes := by
        rw [List.getD_eq_getElem nodes (0, []) h]
        exact List.getElem_mem h
      have hfresh := hnovel a (nodes.getD children.length (0, [])) hp
      simp only [genChildrenGo, if_pos h, if_neg hfresh]
      exact ih (a + 1) (idxs ++ [(nodes.getD children.length (0, [])).1])
        (children ++ [generate_random_mutant (rng.mutFlip a) (rng.mutChoice a)
          (nodes.getD children.length (0, [])).2
          (mu * 1 / (((nodes.getD children.length (0, [])).2).length : ℚ)) vocab])
        (by simp; omega)
    · simp [genChildrenGo, h]

/-- C6 amended witness: with a generator that always mutates to the unseen
symbol `B`, the generation loop over one pending node finishes within one
attempt. -/
theorem mutant_generation_terminates_when_novel_witness :
    (genChildrenGo rngNovel 1 ['A', 'B'] [['A']] [] [(0, ['A'])] 1 0 [] []).isSome
      = true :=
  mutant_generation_terminates_when_novel rngNovel 1 ['A', 'B'] [['A']] [] [(0, ['A'])]
    (by
      intro a p hp
      simp only [List.mem_singleton] at hp
      subst hp
      simp only [rngNovel]
      with_unfolding_all decide)
    1 0 [] [] (by norm_num)

theorem map_getD_range (l : List ℚ) :
    (List.range l.length).map (fun i => l.getD i 0) = l := by
  apply List.ext_getElem
  · simp
  · intro i h1 h2
    simp only [List.getElem_map, List.getElem_range]
    rw [List.getD_eq_getElem l 0 h2]

theorem argsortAsc_perm (l : List ℚ) : (argsortAsc l).Perm (List.range l.length) :=
  List.perm_insertionSort _ _

theorem mem_argsortAsc {l : List ℚ} {i : ℕ} (h : i ∈ argsortAsc l) : i < l.length := by
  have := (argsortAsc_perm l).mem_iff.mp h
  simpa using this

theorem argsortAsc_nodup (l : List ℚ) : (argsortAsc l).Nodup :=
  ((argsortAsc_perm l).nodup_iff).mpr (List.nodup_range _)

theorem argsortAsc_length (l : List ℚ) : (argsortAsc l).length = l.length := by
  rw [(argsortAsc_perm l).length_eq, List.length_range]

theorem argsortAsc_sorted (l : List ℚ) :
    (argsortAsc l).Sorted (fun i j => l.getD i 0 ≤ l.getD j 0) := by
  haveI : IsTotal ℕ (fun i j => l.getD i 0 ≤ l.getD j 0) := ⟨fun _ _ => le_total _ _⟩
  haveI : IsTrans ℕ (fun i j => l.getD i 0 ≤ l.getD j 0) :=
    ⟨fun _ _ _ hab hbc => le_trans hab hbc⟩
  exact List.sorted_insertionSort _ _

theorem argsortAsc_map_sorted (l : List ℚ) :
    ((argsortAsc l).map (fun i => l.getD i 0)).Sorted (· ≤ ·) :=
  List.Pairwise.map _ (fun _ _ h => h) (argsortAsc_sorted l)

theorem argsortAsc_map_perm (l : List ℚ) :
    ((argsortAsc l).map (fun i => l.getD i 0)).Perm l := by
  have h := (argsortAsc_perm l).map (fun i => l.getD i 0)
  rwa [map_getD_range] at h

theorem argsortAsc_reverse_map (l : List ℚ) :
    (argsortAsc l).reverse.map (fun i => l.getD i 0)
      = List.insertionSort (fun a b => b ≤ a) l := by
  haveI : IsTotal ℚ (fun a b : ℚ => b ≤ a) := ⟨fun a b => (le_total b a)⟩
  haveI : IsTrans ℚ (fun a b : ℚ => b ≤ a) := ⟨fun _ _ _ hab hbc => le_trans hbc hab⟩
  haveI : IsAntisymm ℚ (fun a b : ℚ => b ≤ a) := ⟨fun _ _ h1 h2 => le_antisymm h2 h1⟩
  apply List.eq_of_perm_of_sorted (r := fun a b : ℚ => b ≤ a)
  · exact ((List.reverse_perm _).map _).trans
      ((argsortAsc_map_perm l).trans (List.perm_insertionSort _ l).symm)
  · rw [List.map_reverse]
    exact List.pairwise_reverse.mpr (by simpa using argsortAsc_map_sorted l)
  · exact List.sorted_insertionSort _ l

end AdaLead

namespace AdaLead

theorem sorted_order_mem {preds : List ℚ} {sbs : ℕ} {i : ℕ}
    (h : i ∈ sorted_order sbs preds) : i < preds.length := by
  unfold sorted_order at h
  exact mem_argsortAsc (List.mem_reverse.mp (List.mem_of_mem_take h))

theorem sorted_order_nodup (sbs : ℕ) (preds : List ℚ) :
    (sorted_order sbs preds).Nodup := by
  have h : (argsortAsc preds).reverse.Nodup :=
    (List.reverse_perm _).nodup_iff.mpr (argsortAsc_nodup preds)
  exact h.sublist (List.take_sublist _ _)

theorem sorted_order_length {preds : List ℚ} {sbs : ℕ} (h : 1 ≤ sbs) :
    (sorted_order sbs preds).length = min (sbs - 1) preds.length := by
  unfold sorted_order
  rw [if_neg (by omega), List.length_take, List.length_reverse, argsortAsc_length]

theorem getD_map_of_lt {α β : Type} (f : α → β) (l : List α) (i : ℕ) (hd : β)
    (d0 : α) (h : i < l.length) : (l.map f).getD i hd = f (l.getD i d0) := by
  rw [List.getD_eq_getElem _ _ (by simpa using h), List.getElem_map,
    List.getD_eq_getElem _ _ h]

theorem proposeTopK_fst_eq (sbs : ℕ) (d : List (Seq × ℚ)) :
    (proposeTopK sbs d).1 = (sorted_order sbs (d.map Prod.snd)).map
      (fun i => (d.map Prod.fst).getD i []) := by
  simp only [proposeTopK]

theorem proposeTopK_snd_eq (sbs : ℕ) (d : List (Seq × ℚ)) :
    (proposeTopK sbs d).2 = (sorted_order sbs (d.map Prod.snd)).map
      (fun i => (d.map Prod.snd).getD i 0) := by
  simp only [proposeTopK]

theorem proposeTopK_length {d : List (Seq × ℚ)} {sbs : ℕ} (h : 1 ≤ sbs) :
    (proposeTopK sbs d).1.length = min (sbs - 1) d.length := by
  rw [proposeTopK_fst_eq, List.length_map, sorted_order_length h, List.length_map]

theorem proposeTopK_lengths_eq (d : List (Seq × ℚ)) (sbs : ℕ) :
    (proposeTopK sbs d).1.length = (proposeTopK sbs d).2.length := by
  rw [proposeTopK_fst_eq, proposeTopK_snd_eq, List.length_map, List.length_map]

theorem proposeTopK_preds_eq {d : List (Seq × ℚ)} {sbs : ℕ} (h : 1 ≤ sbs) :
    (proposeTopK sbs d).2
      = (List.insertionSort (fun a b => b ≤ a) (d.map Prod.snd)).take (sbs - 1) := by
  rw [proposeTopK_snd_eq]
  unfold sorted_order
  rw [if_neg (by omega : ¬ sbs = 0), ← argsortAsc_reverse_map (d.map Prod.snd),
    ← List.map_take]

theorem proposeTopK_fst_mem {d : List (Seq × ℚ)} {sbs : ℕ} {s : Seq}
    (h : s ∈ (proposeTopK sbs d).1) : s ∈ d.map Prod.fst := by
  rw [proposeTopK_fst_eq] at h
  simp only [List.mem_map] at h
  obtain ⟨i, hi, heq⟩ := h
  have hlt : i < (d.map Prod.fst).length := by
    rw [List.length_map]
    have := sorted_order_mem hi
    simpa using this
  rw [← heq, List.getD_eq_getElem _ _ hlt]
  exact List.getElem_mem hlt

theorem proposeTopK_sorted (d : List (Seq × ℚ)) (sbs : ℕ) :
    (proposeTopK sbs d).2.Sorted (fun a b => b ≤ a) := by
  rw [proposeTopK_snd_eq]
  unfold sorted_order
  apply List.Pairwise.map (fun i => (d.map Prod.snd).getD i 0) (fun a b h => h)
  apply List.Pairwise.sublist (List.take_sublist _ _)
  exact List.pairwise_reverse.mpr (by simpa using argsortAsc_sorted (d.map Prod.snd))

theorem lookup_eq_some_of_mem :
    ∀ {d : List (Seq × ℚ)}, (d.map Prod.fst).Nodup →
      ∀ {k : Seq} {v : ℚ}, (k, v) ∈ d → d.lookup k = some v := by
  intro d
  induction d with
  | nil => intro _ k v hm; simp at hm
  | cons p rest ih =>
    intro hnd k v hm
    obtain ⟨pk, pv⟩ := p
    simp only [List.map_cons, List.nodup_cons] at hnd
    rcases List.mem_cons.mp hm with h | h
    · rw [Prod.mk.injEq] at h
      obtain ⟨h1, h2⟩ := h
      subst h1
      subst h2
      simp [List.lookup]
    · have hne : (k == pk) = false := by
        rw [beq_eq_false_iff_ne]
        intro he
        subst he
        exact hnd.1 (List.mem_map_of_mem Prod.fst h)
      simp only [List.lookup, hne]
      exact ih hnd.2 h

theorem proposeTopK_aligned {d : List (Seq × ℚ)} (hnd : (d.map Prod.fst).Nodup)
    (sbs : ℕ) (i : ℕ) (hi : i < (proposeTopK sbs d).1.length) :
    d.lookup ((proposeTopK sbs d).1.getD i [])
      = some ((proposeTopK sbs d).2.getD i 0) := by
  have hi2 : i < (sorted_order sbs (d.map Prod.snd)).length := by
    rw [proposeTopK_fst_eq, List.length_map] at hi
    exact hi
  rw [proposeTopK_fst_eq, proposeTopK_snd_eq,
    getD_map_of_lt _ _ _ _ 0 hi2, getD_map_of_lt _ _ _ _ 0 hi2]
  set j := (sorted_order sbs (d.map Prod.snd)).getD i 0 with hjdef
  have hjmem : j ∈ sorted_order sbs (d.map Prod.snd) := by
    rw [hjdef, List.getD_eq_getElem _ _ hi2]
    exact List.getElem_mem hi2
  have hjlt : j < d.length := by
    have := sorted_order_mem hjmem
    simpa using this
  rw [getD_map_of_lt Prod.fst d j [] ([], 0) hjlt,
    getD_map_of_lt Prod.snd d j 0 ([], 0) hjlt]
  apply lookup_eq_some_of_mem hnd
  rw [Prod.mk.eta]
  rw [List.getD_eq_getElem _ _ hjlt]
  exact List.getElem_mem hjlt

theorem dictInsert_keys (d : List (Seq × ℚ)) (k : Seq) (v : ℚ) :
    (dictInsert d k v).map Prod.fst
      = if k ∈ d.map Prod.fst then d.map Prod.fst else d.map Prod.fst ++ [k] := by
  unfold dictInsert
  by_cases h : k ∈ d.map Prod.fst
  · rw [if_pos h, if_pos h, List.map_map]
    apply List.map_congr_left
    intro p hp
    by_cases hpk : p.1 = k
    · simp [Function.comp, hpk]
    · simp [Function.comp, hpk]
  · rw [if_neg h, if_neg h]
    simp

theorem dictInsert_keys_nodup {d : List (Seq × ℚ)} (h : (d.map Prod.fst).Nodup)
    (k : Seq) (v : ℚ) : ((dictInsert d k v).map Prod.fst).Nodup := by
  rw [dictInsert_keys]
  by_cases hk : k ∈ d.map Prod.fst
  · rw [if_pos hk]
    exact h
  · rw [if_neg hk]
    rw [List.nodup_append]
    refine ⟨h, List.nodup_singleton _, fun a ha hb => ?_⟩
    simp only [List.mem_singleton] at hb
    subst hb
    exact hk ha

theorem dictInsert_keys_mem {d : List (Seq × ℚ)} {k : Seq} {v : ℚ} {x : Seq}
    (h : x ∈ (dictInsert d k v).map Prod.fst) : x ∈ d.map Prod.fst ∨ x = k := by
  rw [dictInsert_keys] at h
  by_cases hk : k ∈ d.map Prod.fst
  · rw [if_pos hk] at h
    exact Or.inl h
  · rw [if_neg hk] at h
    rcases List.mem_append.mp h with h | h
    · exact Or.inl h
    · simp only [List.mem_singleton] at h
      exact Or.inr h

theorem dictUpdate_keys_nodup : ∀ (kvs d : List (Seq × ℚ)),
    (d.map Prod.fst).Nodup → ((dictUpdate d kvs).map Prod.fst).Nodup
  | [], _, h => h
  | kv :: rest, _, h =>
    dictUpdate_keys_nodup rest _ (dictInsert_keys_nodup h kv.1 kv.2)

theorem dictUpdate_keys_mem : ∀ (kvs d : List (Seq × ℚ)) (x : Seq),
    x ∈ (dictUpdate d kvs).map Prod.fst →
    x ∈ d.map Prod.fst ∨ x ∈ kvs.map Prod.fst
  | [], _, _, h => Or.inl h
  | kv :: rest, d, x, h => by
    rcases dictUpdate_keys_mem rest (dictInsert d kv.1 kv.2) x h with h' | h'
    · rcases dictInsert_keys_mem h' with h'' | h''
      · exact Or.inl h''
      · exact Or.inr (by simp [h''])
    · exact Or.inr (List.mem_cons_of_mem _ h')

theorem generate_random_mutant_length (flip : ℕ → ℚ) (choose : ℕ → ℕ) (s : Seq)
    (mu : ℚ) (alphabet : List Char) :
    (generate_random_mutant flip choose s mu alphabet).length = s.length := by
  simp [generate_random_mutant]

theorem nextNodes_snd_mem {rf : List ℚ} {idxs : List ℕ} {children : List Seq}
    {fits : List ℚ} {p : ℕ × Seq} (h : p ∈ nextNodes rf idxs children fits) :
    p.2 ∈ children := by
  unfold nextNodes at h
  simp only [List.mem_map, List.mem_filter] at h
  obtain ⟨⟨i, c, fc⟩, ⟨ht, _⟩, heq⟩ := h
  have h2 := (List.of_mem_zip ht).2
  have h3 := (List.of_mem_zip h2).1
  rw [← heq]
  exact h3

theorem recombinePairs_mem_length {rate : ℚ} {coin : ℕ → ℕ → ℚ} {L : ℕ} :
    ∀ (k : ℕ) (gen : List Seq), (∀ s ∈ gen, s.length = L) →
      ∀ s ∈ recombinePairs rate coin k gen, s.length = L
  | _, [], _ => by simp [recombinePairs]
  | _, [_], _ => by simp [recombinePairs]
  | k, a :: b :: rest, h => by
    intro s hs
    simp only [recombinePairs, List.mem_cons] at hs
    rcases hs with h1 | h1 | h1
    · rw [h1, (crossoverGo_length rate (coin k) 0 false a b).1]
      exact h a (List.mem_cons_self _ _)
    · rw [h1, (crossoverGo_length rate (coin k) 0 false a b).2]
      exact h a (List.mem_cons_self _ _)
    · exact recombinePairs_mem_length (k + 1) rest
        (fun s hs => h s (List.mem_cons_of_mem _ (List.mem_cons_of_mem _ hs))) s h1

theorem recombine_population_mem_length {rate : ℚ} {shuffle : List Seq → List Seq}
    {coin : ℕ → ℕ → ℚ} {gen : List Seq} {L : ℕ}
    (hperm : (shuffle gen).Perm gen) (h : ∀ s ∈ gen, s.length = L) :
    ∀ s ∈ recombine_population rate shuffle coin gen, s.length = L := by
  unfold recombine_population
  by_cases h1 : gen.length = 1
  · rw [if_pos h1]
    exact h
  · rw [if_neg h1]
    exact recombinePairs_mem_length 0 (shuffle gen)
      (fun s hs => h s (hperm.subset hs))

theorem recombineRho_mem_length {rate : ℚ} {rng : Rng} {L : ℕ}
    (hsh : ∀ r g, (rng.shuffle r g).Perm g) :
    ∀ (n r : ℕ) (gen : List Seq), (∀ s ∈ gen, s.length = L) →
      ∀ s ∈ recombineRho rate rng n r gen, s.length = L
  | 0, _, _, h => h
  | n + 1, r, gen, h =>
    recombineRho_mem_length hsh n (r + 1) _
      (recombine_population_mem_length (hsh r gen) h)

theorem recombine_population_ne_nil {rate : ℚ} {shuffle : List Seq → List Seq}
    {coin : ℕ → ℕ → ℚ} {gen : List Seq}
    (hperm : (shuffle gen).Perm gen) (h : gen ≠ []) :
    recombine_population rate shuffle coin gen ≠ []
      ∧ (recombine_population rate shuffle coin gen).length ≤ gen.length := by
  unfold recombine_population
  by_cases h1 : gen.length = 1
  · rw [if_pos h1]
    exact ⟨h, le_refl _⟩
  · rw [if_neg h1]
    have hl := recombinePairs_length rate coin 0 (shuffle gen)
    rw [hperm.length_eq] at hl
    have hge2 : 2 ≤ gen.length := by
      have : gen.length ≠ 0 := fun h0 => h (List.eq_nil_of_length_eq_zero h0)
      omega
    constructor
    · intro hnil
      rw [hnil] at hl
      simp only [List.length_nil] at hl
      omega
    · rw [hl]
      omega

theorem recombineRho_ne_nil (rate : ℚ) {rng : Rng}
    (hsh : ∀ r g, (rng.shuffle r g).Perm g) :
    ∀ (n r : ℕ) (gen : List Seq), gen ≠ [] →
      recombineRho rate rng n r gen ≠ []
        ∧ (recombineRho rate rng n r gen).length ≤ gen.length
  | 0, _, _, h => ⟨h, le_refl _⟩
  | n + 1, r, gen, h => by
    have h1 := @recombine_population_ne_nil rate (rng.shuffle r) (rng.coin r) gen
      (hsh r gen) h
    have h2 := recombineRho_ne_nil rate hsh n (r + 1)
      (recombine_population rate (rng.shuffle r) (rng.coin r) gen) h1.1
    exact ⟨h2.1, le_trans h2.2 h1.2⟩

theorem genChildrenGo_children_length {rng : Rng} {mu : ℚ} {vocab : List Char}
    {measured : List Seq} {seqs : List (Seq × ℚ)} {nodes : List (ℕ × Seq)} {L : ℕ}
    (hn : ∀ p ∈ nodes, (p.2 : Seq).length = L) :
    ∀ (fuel a : ℕ) (idxs : List ℕ) (children : List Seq),
      (∀ c ∈ children, c.length = L) →
      ∀ res, genChildrenGo rng mu vocab measured seqs nodes fuel a idxs children
          = some res →
        ∀ c ∈ res.2.1, c.length = L := by
  intro fuel
  induction fuel with
  | zero =>
    intro a idxs children hc res hres
    simp only [genChildrenGo] at hres
    split at hres
    · exact absurd hres (by simp)
    · have : res.2.1 = children := by
        have := Option.some.inj hres
        rw [← this]
      rw [this]
      exact hc
  | succ n ih =>
    intro a idxs children hc res hres
    simp only [genChildrenGo] at hres
    split at hres
    · rename_i hlt
      split at hres
      · exact ih (a + 1) idxs children hc res hres
      · refine ih (a + 1) _ _ ?_ res hres
        intro c hcm
        rcases List.mem_append.mp hcm with h | h
        · exact hc c h
        · simp only [List.mem_singleton] at h
          rw [h, generate_random_mutant_length]
          apply hn
          rw [List.getD_eq_getElem nodes (0, []) hlt]
          exact List.getElem_mem hlt
    · have : res.2.1 = children := by
        have := Option.some.inj hres
        rw [← this]
      rw [this]
      exact hc

theorem rolloutGo_inv {cfg : Config} {rng : Rng} {F : Seq → ℚ} {measured : List Seq}
    {prev : ℕ} {root_fitnesses : List ℚ} {L : ℕ} :
    ∀ (fuel a : ℕ) (nodes : List (ℕ × Seq)) (seqs : List (Seq × ℚ)) (cost : ℕ),
      (∀ p ∈ nodes, (p.2 : Seq).length = L) →
      (seqs.map Prod.fst).Nodup →
      (∀ k ∈ seqs.map Prod.fst, (k : Seq).length = L) →
      ∀ res, rolloutGo cfg rng F measured prev root_fitnesses fuel a nodes seqs cost
          = some res →
        (res.1.map Prod.fst).Nodup ∧ ∀ k ∈ res.1.map Prod.fst, (k : Seq).length = L := by
  intro fuel
  induction fuel with
  | zero =>
    intro a nodes seqs cost hn hnd hkl res hres
    simp only [rolloutGo] at hres
    split at hres
    · exact absurd hres (by simp)
    · have : res.1 = seqs := by
        have := Option.some.inj hres
        rw [← this]
      rw [this]
      exact ⟨hnd, hkl⟩
  | succ n ih =>
    intro a nodes seqs cost hn hnd hkl res hres
    simp only [rolloutGo] at hres
    split at hres
    · rename_i hcond
      rcases hgen : genChildrenGo rng cfg.mu cfg.vocab measured seqs nodes n a [] []
        with _ | trip
      · rw [hgen] at hres
        exact absurd hres (by simp)
      · rw [hgen] at hres
        obtain ⟨child_idxs, children, a2⟩ := trip
        have hch : ∀ c ∈ children, (c : Seq).length = L :=
          genChildrenGo_children_length hn n a [] [] (by simp)
            (child_idxs, children, a2) hgen
        refine ih a2 _ _ _ ?_ ?_ ?_ res hres
        · intro p hp
          exact hch p.2 (nextNodes_snd_mem hp)
        · exact dictUpdate_keys_nodup _ _ hnd
        · intro k hk
          rcases dictUpdate_keys_mem _ _ k hk with h | h
          · exact hkl k h
          · apply hch
            rw [List.map_fst_zip children (children.map F) (by simp)] at h
            exact h
    · have : res.1 = seqs := by
        have := Option.some.inj hres
        rw [← this]
      rw [this]
      exact ⟨hnd, hkl⟩

theorem chunksGo_inv {cfg : Config} {rng : Rng} {F : Seq → ℚ} {measured : List Seq}
    {prev : ℕ} {L : ℕ} :
    ∀ (fuel a : ℕ) (parents : List Seq) (seqs : List (Seq × ℚ)) (cost : ℕ),
      (∀ s ∈ parents, (s : Seq).length = L) →
      (seqs.map Prod.fst).Nodup →
      (∀ k ∈ seqs.map Prod.fst, (k : Seq).length = L) →
      ∀ res, chunksGo cfg rng F measured prev fuel a parents seqs cost = some res →
        (res.1.map Prod.fst).Nodup ∧ ∀ k ∈ res.1.map Prod.fst, (k : Seq).length = L := by
  intro fuel
  induction fuel with
  | zero =>
    intro a parents seqs cost hp hnd hkl res hres
    rcases parents with _ | ⟨x, xs⟩
    · simp only [chunksGo] at hres
      have : res.1 = seqs := by
        have := Option.some.inj hres
        rw [← this]
      rw [this]
      exact ⟨hnd, hkl⟩
    · simp only [chunksGo] at hres
      exact absurd hres (by simp)
  | succ n ih =>
    intro a parents seqs cost hp hnd hkl res hres
    rcases parents with _ | ⟨x, xs⟩
    · simp only [chunksGo] at hres
      have : res.1 = seqs := by
        have := Option.some.inj hres
        rw [← this]
      rw [this]
      exact ⟨hnd, hkl⟩
    · simp only [chunksGo] at hres
      rcases hroll : rolloutGo cfg rng F measured prev
          (((x :: xs).take cfg.eval_batch_size).map F) n a
          ((x :: xs).take cfg.eval_batch_size).enum seqs
          (cost + ((x :: xs).take cfg.eval_batch_size).length)
        with _ | pr
      · rw [hroll] at hres
        exact absurd hres (by simp)
      · rw [hroll] at hres
        obtain ⟨seqs2, cost2, a2⟩ := pr
        have hinv := rolloutGo_inv n a ((x :: xs).take cfg.eval_batch_size).enum seqs
          (cost + ((x :: xs).take cfg.eval_batch_size).length)
          (by
            intro p hpe
            rw [List.enum_eq_zip_range] at hpe
            have := (List.of_mem_zip hpe).2
            exact hp p.2 (List.mem_of_mem_take this))
          hnd hkl (seqs2, cost2, a2) hroll
        exact ih a2 ((x :: xs).drop cfg.eval_batch_size) seqs2 cost2
          (fun s hs => hp s (List.mem_of_mem_drop hs)) hinv.1 hinv.2 res hres

theorem outerGo_inv {cfg : Config} {rng : Rng} {F : Seq → ℚ} {measured : List Seq}
    {prev : ℕ} {L : ℕ} (hsh : ∀ r g, (rng.shuffle r g).Perm g) :
    ∀ (fuel r a : ℕ) (parents : List Seq) (seqs : List (Seq × ℚ)) (cost : ℕ),
      (∀ s ∈ parents, (s : Seq).length = L) →
      (seqs.map Prod.fst).Nodup →
      (∀ k ∈ seqs.map Prod.fst, (k : Seq).length = L) →
      ∀ res, outerGo cfg rng F measured prev fuel r a parents seqs cost = some res →
        (res.1.map Prod.fst).Nodup ∧ ∀ k ∈ res.1.map Prod.fst, (k : Seq).length = L := by
  intro fuel
  induction fuel with
  | zero =>
    intro r a parents seqs cost hp hnd hkl res hres
    simp only [outerGo] at hres
    split at hres
    · exact absurd hres (by simp)
    · have : res.1 = seqs := by
        have := Option.some.inj hres
        rw [← this]
      rw [this]
      exact ⟨hnd, hkl⟩
  | succ n ih =>
    intro r a parents seqs cost hp hnd hkl res hres
    simp only [outerGo] at hres
    split at hres
    · rcases hch : chunksGo cfg rng F measured prev n a
          (recombineRho cfg.recomb_rate rng cfg.rho r parents) seqs cost
        with _ | pr
      · rw [hch] at hres
        exact absurd hres (by simp)
      · rw [hch] at hres
        obtain ⟨seqs2, cost2, a2⟩ := pr
        have hrl : ∀ s ∈ recombineRho cfg.recomb_rate rng cfg.rho r parents,
            (s : Seq).length = L := recombineRho_mem_length hsh cfg.rho r parents hp
        have hinv := chunksGo_inv n a _ seqs cost hrl hnd hkl (seqs2, cost2, a2) hch
        exact ih (r + cfg.rho) a2 _ seqs2 cost2 hrl hinv.1 hinv.2 res hres
    · have : res.1 = seqs := by
        have := Option.some.inj hres
        rw [← this]
      rw [this]
      exact ⟨hnd, hkl⟩

theorem rolloutGo_nodup {cfg : Config} {rng : Rng} {F : Seq → ℚ}
    {measured : List Seq} {prev : ℕ} {root_fitnesses : List ℚ} :
    ∀ (fuel a : ℕ) (nodes : List (ℕ × Seq)) (seqs : List (Seq × ℚ)) (cost : ℕ),
      (seqs.map Prod.fst).Nodup →
      ∀ res, rolloutGo cfg rng F measured prev root_fitnesses fuel a nodes seqs cost
          = some res →
        (res.1.map Prod.fst).Nodup := by
  intro fuel
  induction fuel with
  | zero =>
    intro a nodes seqs cost hnd res hres
    simp only [rolloutGo] at hres
    split at hres
    · exact absurd hres (by simp)
    · have : res.1 = seqs := by
        have := Option.some.inj hres
        rw [← this]
      rw [this]
      exact hnd
  | succ n ih =>
    intro a nodes seqs cost hnd res hres
    simp only [rolloutGo] at hres
    split at hres
    · rcases hgen : genChildrenGo rng cfg.mu cfg.vocab measured seqs nodes n a [] []
        with _ | trip
      · rw [hgen] at hres
        exact absurd hres (by simp)
      · rw [hgen] at hres
        obtain ⟨child_idxs, children, a2⟩ := trip
        exact ih a2 _ _ _ (dictUpdate_keys_nodup _ _ hnd) res hres
    · have : res.1 = seqs := by
        have := Option.some.inj hres
        rw [← this]
      rw [this]
      exact hnd

theorem chunksGo_nodup {cfg : Config} {rng : Rng} {F : Seq → ℚ}
    {measured : List Seq} {prev : ℕ} :
    ∀ (fuel a : ℕ) (parents : List Seq) (seqs : List (Seq × ℚ)) (cost : ℕ),
      (seqs.map Prod.fst).Nodup →
      ∀ res, chunksGo cfg rng F measured prev fuel a parents seqs cost = some res →
        (res.1.map Prod.fst).Nodup := by
  intro fuel
  induction fuel with
  | zero =>
    intro a parents seqs cost hnd res hres
    rcases parents with _ | ⟨x, xs⟩
    · simp only [chunksGo] at hres
      have : res.1 = seqs := by
        have := Option.some.inj hres
        rw [← this]
      rw [this]
      exact hnd
    · simp only [chunksGo] at hres
      exact absurd hres (by simp)
  | succ n ih =>
    intro a parents seqs cost hnd res hres
    rcases parents with _ | ⟨x, xs⟩
    · simp only [chunksGo] at hres
      have : res.1 = seqs := by
        have := Option.some.inj hres
        rw [← this]
      rw [this]
      exact hnd
    · simp only [chunksGo] at hres
      rcases hroll : rolloutGo cfg rng F measured prev
          (((x :: xs).take cfg.eval_batch_size).map F) n a
          ((x :: xs).take cfg.eval_batch_size).enum seqs
          (cost + ((x :: xs).take cfg.eval_batch_size).length)
        with _ | pr
      · rw [hroll] at hres
        exact absurd hres (by simp)
      · rw [hroll] at hres
        obtain ⟨seqs2, cost2, a2⟩ := pr
        have h1 := rolloutGo_nodup n a _ seqs _ hnd (seqs2, cost2, a2) hroll
        exact ih a2 _ seqs2 cost2 h1 res hres

theorem outerGo_nodup {cfg : Config} {rng : Rng} {F : Seq → ℚ}
    {measured : List Seq} {prev : ℕ} :
    ∀ (fuel r a : ℕ) (parents : List Seq) (seqs : List (Seq × ℚ)) (cost : ℕ),
      (seqs.map Prod.fst).Nodup →
      ∀ res, outerGo cfg rng F measured prev fuel r a parents seqs cost = some res →
        (res.1.map Prod.fst).Nodup := by
  intro fuel
  induction fuel with
  | zero =>
    intro r a parents seqs cost hnd res hres
    simp only [outerGo] at hres
    split at hres
    · exact absurd hres (by simp)
    · have : res.1 = seqs := by
        have := Option.some.inj hres
        rw [← this]
      rw [this]
      exact hnd
  | succ n ih =>
    intro r a parents seqs cost hnd res hres
    simp only [outerGo] at hres
    split at hres
    · rcases hch : chunksGo cfg rng F measured prev n a
          (recombineRho cfg.recomb_rate rng cfg.rho r parents) seqs cost
        with _ | pr
      · rw [hch] at hres
        exact absurd hres (by simp)
      · rw [hch] at hres
        obtain ⟨seqs2, cost2, a2⟩ := pr
        have h1 := chunksGo_nodup n a _ seqs cost hnd (seqs2, cost2, a2) hch
        exact ih (r + cfg.rho) a2 _ seqs2 cost2 h1 res hres
    · have : res.1 = seqs := by
        have := Option.some.inj hres
        rw [← this]
      rw [this]
      exact hnd

theorem propose_core_keys_nodup {cfg : Config} {rng : Rng} {F : Seq → ℚ}
    {P : List Seq} {cost0 fuel : ℕ} {d : List (Seq × ℚ)}
    (h : propose_core cfg rng F P cost0 fuel = some d) : (d.map Prod.fst).Nodup := by
  simp only [propose_core] at h
  rcases ho : outerGo cfg rng F P (cost0 + P.length) fuel 0 0
      (npResize ((top_inds (P.map F) cfg.threshold).map (fun i => P.getD i []))
        cfg.sequences_batch_size) [] (cost0 + P.length)
    with _ | pr
  · rw [ho] at h
    exact absurd h (by simp)
  · rw [ho] at h
    simp only [Option.map_some'] at h
    have hd : d = pr.1 := (Option.some.inj h).symm
    rw [hd]
    exact outerGo_nodup fuel 0 0 _ [] _ (by simp) pr ho

theorem mem_npResize {l : List Seq} {n : ℕ} {s : Seq} (hl : l ≠ [])
    (h : s ∈ npResize l n) : s ∈ l := by
  unfold npResize at h
  simp only [List.mem_map, List.mem_range] at h
  obtain ⟨i, hi, heq⟩ := h
  have hlen : 0 < l.length := List.length_pos.mpr hl
  have hmod : i % l.length < l.length := Nat.mod_lt _ hlen
  rw [← heq, List.getD_eq_getElem _ _ hmod]
  exact List.getElem_mem hmod

theorem propose_core_inv {cfg : Config} {rng : Rng} {F : Seq → ℚ}
    {P : List Seq} {cost0 fuel : ℕ} {d : List (Seq × ℚ)} {L : ℕ}
    (hsh : ∀ r g, (rng.shuffle r g).Perm g) (hne : P ≠ [])
    (hθ : 0 ≤ cfg.threshold) (hPL : ∀ s ∈ P, (s : Seq).length = L)
    (h : propose_core cfg rng F P cost0 fuel = some d) :
    (d.map Prod.fst).Nodup ∧ ∀ k ∈ d.map Prod.fst, (k : Seq).length = L := by
  simp only [propose_core] at h
  rcases ho : outerGo cfg rng F P (cost0 + P.length) fuel 0 0
      (npResize ((top_inds (P.map F) cfg.threshold).map (fun i => P.getD i []))
        cfg.sequences_batch_size) [] (cost0 + P.length)
    with _ | pr
  · rw [ho] at h
    exact absurd h (by simp)
  · rw [ho] at h
    simp only [Option.map_some'] at h
    have hd : d = pr.1 := (Option.some.inj h).symm
    have hsel : (top_inds (P.map F) cfg.threshold).map (fun i => P.getD i []) ≠ [] := by
      have h1 : top_inds (P.map F) cfg.threshold ≠ [] :=
        top_inds_ne_nil (by simpa using hne) hθ
      simpa using h1
    have hselmem : ∀ s ∈ (top_inds (P.map F) cfg.threshold).map (fun i => P.getD i []),
        s ∈ P := by
      intro s hs
      simp only [List.mem_map] at hs
      obtain ⟨i, hi, heq⟩ := hs
      have hlt : i < P.length := by
        have := (mem_top_inds.mp hi).1
        simpa using this
      rw [← heq, List.getD_eq_getElem _ _ hlt]
      exact List.getElem_mem hlt
    have hpar : ∀ s ∈ npResize ((top_inds (P.map F) cfg.threshold).map
        (fun i => P.getD i [])) cfg.sequences_batch_size, (s : Seq).length = L :=
      fun s hs => hPL s (hselmem s (mem_npResize hsel hs))
    rw [hd]
    exact outerGo_inv hsh fuel 0 0 _ [] _ hpar (by simp) (by simp) pr ho

theorem proposeTopK_fst_nodup {d : List (Seq × ℚ)} (hnd : (d.map Prod.fst).Nodup)
    (sbs : ℕ) : (proposeTopK sbs d).1.Nodup := by
  rw [proposeTopK_fst_eq]
  apply List.Nodup.map_on ?_ (sorted_order_nodup sbs (d.map Prod.snd))
  intro i hi j hj heq
  have hilt : i < (d.map Prod.fst).length := by
    rw [List.length_map]
    have := sorted_order_mem hi
    simpa using this
  have hjlt : j < (d.map Prod.fst).length := by
    rw [List.length_map]
    have := sorted_order_mem hj
    simpa using this
  rw [List.getD_eq_getElem _ _ hilt, List.getD_eq_getElem _ _ hjlt] at heq
  exact (List.Nodup.getElem_inj_iff hnd).mp heq

/-- C9: for an input population of nonempty sequences all of length `L`, a
normal return of `propose_sequences` contains no two identical sequences and
every returned sequence has length `L` (mutation and recombination preserve
length, and the discovered map is keyed by sequence so keys are unique). -/
theorem propose_output_nodup_lengths :
    ∀ (cfg : Config) (rng : Rng) (F : Seq → ℚ) (P : List Seq) (cost0 fuel L : ℕ)
      (out : List Seq × List ℚ),
      (∀ r g, (rng.shuffle r g).Perm g) → P ≠ [] → 0 ≤ cfg.threshold →
      (∀ s ∈ P, (s : Seq).length = L) →
      propose_sequences cfg rng F P cost0 fuel = some (Except.ok out) →
      out.1.Nodup ∧ ∀ s ∈ out.1, (s : Seq).length = L := by
  intro cfg rng F P cost0 fuel L out hsh hne hθ hPL h
  unfold propose_sequences at h
  rcases hc : propose_core cfg rng F P cost0 fuel with _ | d
  · rw [hc] at h
    exact absurd h (by simp)
  · rw [hc] at h
    simp only [Option.map_some'] at h
    by_cases hd0 : d.length = 0
    · rw [if_pos hd0] at h
      exact absurd h (by simp)
    · rw [if_neg hd0] at h
      simp only [Option.some.injEq, Except.ok.injEq] at h
      have hinv := propose_core_inv hsh hne hθ hPL hc
      rw [← h]
      refine ⟨proposeTopK_fst_nodup hinv.1 _, fun s hs => ?_⟩
      exact hinv.2 s (proposeTopK_fst_mem hs)

/-- C9 witness: a concrete run over population `["A"]` (length-1 sequences)
returns the duplicate-free list `["B"]` of length-1 sequences. -/
theorem propose_output_nodup_lengths_witness :
    ([['B']] : List Seq).Nodup ∧ (['B'] : Seq).length = 1 := by
  have h := propose_output_nodup_lengths cfgA rngA fitA [['A']] 0 10 1 ([['B']], [1])
    (by
      intro r g
      simp only [rngA]
      exact List.Perm.refl g)
    (by simp) (by with_unfolding_all decide) (by decide)
    (by with_unfolding_all rfl)
  exact ⟨h.1, h.2 ['B'] (by simp)⟩

/-- C10: the two arrays of a normal return of `propose_sequences` are
index-aligned with the round's discovered map (the score at position `i` is
the recorded fitness of the sequence at position `i`) and the scores are in
non-increasing order. -/
theorem propose_output_aligned_sorted :
    ∀ (cfg : Config) (rng : Rng) (F : Seq → ℚ) (P : List Seq) (cost0 fuel : ℕ)
      (d : List (Seq × ℚ)) (out : List Seq × List ℚ),
      propose_core cfg rng F P cost0 fuel = some d →
      propose_sequences cfg rng F P cost0 fuel = some (Except.ok out) →
      out.1.length = out.2.length
      ∧ out.2.Sorted (fun a b => b ≤ a)
      ∧ ∀ i : ℕ, i < out.1.length →
          d.lookup (out.1.getD i []) = some (out.2.getD i 0) := by
  intro cfg rng F P cost0 fuel d out hc h
  unfold propose_sequences at h
  rw [hc] at h
  simp only [Option.map_some'] at h
  by_cases hd0 : d.length = 0
  · rw [if_pos hd0] at h
    exact absurd h (by simp)
  · rw [if_neg hd0] at h
    simp only [Option.some.injEq, Except.ok.injEq] at h
    rw [← h]
    exact ⟨proposeTopK_lengths_eq d _, proposeTopK_sorted d _,
      fun i hi => proposeTopK_aligned (propose_core_keys_nodup hc) _ i hi⟩

/-- C10 witness: in the concrete run the returned score at position `0` is
exactly the fitness the discovered map records for the returned sequence at
position `0`. -/
theorem propose_output_aligned_sorted_witness :
    [(['B'], (1 : ℚ))].lookup ((([['B']], [(1 : ℚ)]).1).getD 0 [])
      = some ((([['B']], [(1 : ℚ)]).2).getD 0 0) := by
  have h := propose_output_aligned_sorted cfgA rngA fitA [['A']] 0 10 [(['B'], 1)]
    ([['B']], [1]) (by with_unfolding_all decide) (by with_unfolding_all rfl)
  exact h.2.2 0 (by simp)

/-- C3: when the discovered map `d` of the round is nonempty,
`propose_sequences` returns `proposeTopK` of `d`: at most
`sequences_batch_size - 1` sequences (exactly `min (sequences_batch_size - 1)
d.length`, so the top-K intentionally excludes one), drawn from the
discovered map, whose scores are the largest `sequences_batch_size - 1`
discovered scores in descending order. -/
theorem propose_topk_selection :
    ∀ (cfg : Config) (rng : Rng) (F : Seq → ℚ) (P : List Seq) (cost0 fuel : ℕ)
      (d : List (Seq × ℚ)),
      1 ≤ cfg.sequences_batch_size →
      propose_core cfg rng F P cost0 fuel = some d → d ≠ [] →
      propose_sequences cfg rng F P cost0 fuel
        = some (Except.ok (proposeTopK cfg.sequences_batch_size d))
      ∧ (proposeTopK cfg.sequences_batch_size d).1.length
          = min (cfg.sequences_batch_size - 1) d.length
      ∧ (proposeTopK cfg.sequences_batch_size d).2
          = (List.insertionSort (fun a b => b ≤ a) (d.map Prod.snd)).take
              (cfg.sequences_batch_size - 1)
      ∧ ∀ s ∈ (proposeTopK cfg.sequences_batch_size d).1, s ∈ d.map Prod.fst := by
  intro cfg rng F P cost0 fuel d hsbs hc hdne
  refine ⟨?_, proposeTopK_length hsbs, proposeTopK_preds_eq hsbs,
    fun s hs => proposeTopK_fst_mem hs⟩
  unfold propose_sequences
  rw [hc]
  simp only [Option.map_some']
  rw [if_neg (by simpa [List.length_eq_zero] using hdne)]

/-- C3 witness: a concrete run with `sequences_batch_size = 2` and one
discovered sequence returns the top-K extraction, of length
`min (2 - 1) 1 = 1`. -/
theorem propose_topk_selection_witness :
    propose_sequences cfgA rngA fitA [['A']] 0 10
      = some (Except.ok (proposeTopK cfgA.sequences_batch_size [(['B'], 1)]))
    ∧ (proposeTopK cfgA.sequences_batch_size [(['B'], 1)]).1.length
      = min (cfgA.sequences_batch_size - 1) ([(['B'], (1 : ℚ))] : List (Seq × ℚ)).length := by
  have h := propose_topk_selection cfgA rngA fitA [['A']] 0 10 [(['B'], 1)]
    (by decide) (by with_unfolding_all decide) (by simp)
  exact ⟨h.1, h.2.1⟩

theorem npResize_length (l : List Seq) (n : ℕ) : (npResize l n).length = n := by
  simp [npResize]

theorem rolloutGo_exit {cfg : Config} {rng : Rng} {F : Seq → ℚ} {measured : List Seq}
    {prev : ℕ} {root_fitnesses : List ℚ} (fuel a : ℕ) (nodes : List (ℕ × Seq))
    (seqs : List (Seq × ℚ)) (cost : ℕ)
    (h : cfg.model_queries_per_batch ≤ cost - prev + cfg.eval_batch_size) :
    rolloutGo cfg rng F measured prev root_fitnesses fuel a nodes seqs cost
      = some (seqs, cost, a) := by
  have hcond : ¬ (0 < nodes.length ∧
      cost - prev + cfg.eval_batch_size < cfg.model_queries_per_batch) := by
    rintro ⟨_, h2⟩
    omega
  cases fuel <;> simp only [rolloutGo, if_neg hcond]

theorem chunksGo_scenario {cfg : Config} {rng : Rng} {F : Seq → ℚ}
    {measured : List Seq} {prev : ℕ}
    (hsmall : cfg.model_queries_per_batch < cfg.eval_batch_size) :
    ∀ (fuel a : ℕ) (parents : List Seq) (seqs : List (Seq × ℚ)) (cost : ℕ),
      parents.length ≤ fuel →
      chunksGo cfg rng F measured prev fuel a parents seqs cost
        = some (seqs, cost + parents.length, a) := by
  intro fuel
  induction fuel with
  | zero =>
    intro a parents seqs cost hle
    have hnil : parents = [] := List.eq_nil_of_length_eq_zero (by omega)
    subst hnil
    simp [chunksGo]
  | succ n ih =>
    intro a parents seqs cost hle
    rcases parents with _ | ⟨x, xs⟩
    · simp [chunksGo]
    · simp only [chunksGo]
      rw [rolloutGo_exit n a _ seqs _ (by omega)]
      show chunksGo cfg rng F measured prev n a ((x :: xs).drop cfg.eval_batch_size)
        seqs (cost + ((x :: xs).take cfg.eval_batch_size).length)
        = some (seqs, cost + (x :: xs).length, a)
      rw [ih a ((x :: xs).drop cfg.eval_batch_size) seqs
        (cost + ((x :: xs).take cfg.eval_batch_size).length) (by
          rw [List.length_drop]
          omega)]
      have harith : cost + ((x :: xs).take cfg.eval_batch_size).length
          + ((x :: xs).drop cfg.eval_batch_size).length = cost + (x :: xs).length := by
        rw [List.length_take, List.length_drop]
        omega
      rw [harith]

theorem outerGo_scenario {cfg : Config} {rng : Rng} {F : Seq → ℚ}
    {measured : List Seq} {prev : ℕ}
    (hsmall : cfg.model_queries_per_batch < cfg.eval_batch_size)
    (hsh : ∀ r g, (rng.shuffle r g).Perm g) :
    ∀ (fuel r a : ℕ) (parents : List Seq) (seqs : List (Seq × ℚ)) (cost : ℕ),
      parents ≠ [] → prev ≤ cost →
      (cfg.model_queries_per_batch - (cost - prev)) + parents.length < fuel →
      ∃ c2, outerGo cfg rng F measured prev fuel r a parents seqs cost
        = some (seqs, c2) := by
  intro fuel
  induction fuel with
  | zero =>
    intro r a parents seqs cost hne hpc hlt
    omega
  | succ n ih =>
    intro r a parents seqs cost hne hpc hlt
    by_cases hcond : cost - prev < cfg.model_queries_per_batch
    · simp only [outerGo, if_pos hcond]
      have hrho := recombineRho_ne_nil cfg.recomb_rate hsh cfg.rho r parents hne
      have hlen2 : 1 ≤ (recombineRho cfg.recomb_rate rng cfg.rho r parents).length :=
        List.length_pos.mpr hrho.1
      obtain ⟨c2, hc2⟩ := ih (r + cfg.rho) a
        (recombineRho cfg.recomb_rate rng cfg.rho r parents) seqs
        (cost + (recombineRho cfg.recomb_rate rng cfg.rho r parents).length)
        hrho.1 (by omega) (by
          have h2 := hrho.2
          omega)
      refine ⟨c2, ?_⟩
      rw [chunksGo_scenario hsmall n a
        (recombineRho cfg.recomb_rate rng cfg.rho r parents) seqs cost (by
          have h2 := hrho.2
          omega)]
      show outerGo cfg rng F measured prev n (r + cfg.rho) a
        (recombineRho cfg.recomb_rate rng cfg.rho r parents) seqs
        (cost + (recombineRho cfg.recomb_rate rng cfg.rho r parents).length)
        = some (seqs, c2)
      exact hc2
    · simp only [outerGo, if_neg hcond]
      exact ⟨cost, rfl⟩

theorem propose_core_scenario {cfg : Config} {rng : Rng} (F : Seq → ℚ)
    (P : List Seq) (cost0 : ℕ) (hsh : ∀ r g, (rng.shuffle r g).Perm g)
    (hsbs : 1 ≤ cfg.sequences_batch_size)
    (hsmall : cfg.model_queries_per_batch < cfg.eval_batch_size) :
    ∀ fuel, cfg.model_queries_per_batch + cfg.sequences_batch_size < fuel →
      propose_core cfg rng F P cost0 fuel = some [] := by
  intro fuel hf
  simp only [propose_core]
  have hparlen : (npResize ((top_inds (P.map F) cfg.threshold).map
      (fun i => P.getD i [])) cfg.sequences_batch_size).length
      = cfg.sequences_batch_size := npResize_length _ _
  have hparne : npResize ((top_inds (P.map F) cfg.threshold).map
      (fun i => P.getD i [])) cfg.sequences_batch_size ≠ [] := by
    intro h0
    rw [h0] at hparlen
    simp only [List.length_nil] at hparlen
    omega
  obtain ⟨c2, hc2⟩ := outerGo_scenario hsmall hsh fuel 0 0
    (npResize ((top_inds (P.map F) cfg.threshold).map (fun i => P.getD i []))
      cfg.sequences_batch_size) [] (cost0 + P.length) hparne (le_refl _) (by
        rw [hparlen]
        omega)
  rw [hc2]
  rfl

/-- C4: `propose_sequences` raises the empty-proposal error exactly when the
round's discovered map is empty; and when `model_queries_per_batch <
eval_batch_size` no mutant batch ever fits in the round budget, so the
discovered map stays empty and the error is raised (for any fuel large
enough to drive the budget loop to completion). -/
theorem empty_proposal_error_iff :
    ∀ (cfg : Config) (rng : Rng) (F : Seq → ℚ) (P : List Seq) (cost0 : ℕ),
      (∀ (fuel : ℕ) (d : List (Seq × ℚ)),
        propose_core cfg rng F P cost0 fuel = some d →
        (propose_sequences cfg rng F P cost0 fuel = some (Except.error ()) ↔ d = []))
      ∧ ((∀ r g, (rng.shuffle r g).Perm g) → P ≠ [] →
          1 ≤ cfg.sequences_batch_size →
          cfg.model_queries_per_batch < cfg.eval_batch_size →
          ∀ fuel, cfg.model_queries_per_batch + cfg.sequences_batch_size < fuel →
            propose_sequences cfg rng F P cost0 fuel = some (Except.error ())) := by
  intro cfg rng F P cost0
  constructor
  · intro fuel d hc
    unfold propose_sequences
    rw [hc]
    simp only [Option.map_some']
    constructor
    · intro h
      by_contra hdne
      rw [if_neg (by simpa [List.length_eq_zero] using hdne)] at h
      simp at h
    · intro h
      subst h
      simp
  · intro hsh hne hsbs hsmall fuel hf
    have hcore := propose_core_scenario F P cost0 hsh hsbs hsmall fuel hf
    unfold propose_sequences
    rw [hcore]
    simp

/-- C4 witness: with a query budget of `0` and `eval_batch_size = 1`, the
round discovers nothing and `propose_sequences` reports the empty-proposal
error. -/
theorem empty_proposal_error_iff_witness :
    propose_sequences cfgB rngA fitA [['A']] 0 3 = some (Except.error ()) :=
  (empty_proposal_error_iff cfgB rngA fitA [['A']] 0).2
    (by
      intro r g
      simp only [rngA]
      exact List.Perm.refl g)
    (by simp) (by decide) (by decide) 3 (by decide)

end AdaLead
